import Mathlib

/-!
Shallow embedding of the bookgen generation pipeline (src/bookgen/main.py).

Strings are modelled as Lean `String` (lists of characters via `.data`);
Python string operations (`strip`, `splitlines`, `split`, `replace`,
`lower`, word counting) and the specific regular expressions used by the
source are implemented as executable functions on `List Char`, faithful to
CPython semantics on the character classes the source manipulates
(ASCII whitespace and the Unicode line-break set of `str.splitlines`).
Floating point ratio comparisons against 0.6 are replaced by the exact
rational comparisons `5*u > 3*n` / `5*u >= 3*n`, which agree with the
float comparison for all line lengths that can occur here.
The completion client is modelled as an oracle `Nat -> String` giving the
raw text of the n-th remote call of a run; `responses_text` strips the
extracted payload, hence each call site receives `pyStrip (O k)`.
-/

namespace Bookgen

/-- Whitespace as recognised by Python `str.strip()` / `str.split()` and
the regex class `\s` on `str` patterns: ASCII whitespace, the C1 separator
controls, and the Unicode space and line/paragraph separators.  Every
line-break character of `str.splitlines` is whitespace. -/
def isWs (c : Char) : Bool :=
  c = ' ' || c = '\t' || c = '\n' || c = '\x0d' || c = '\x0b' || c = '\x0c' ||
  c = '\x1c' || c = '\x1d' || c = '\x1e' || c = '\x1f' || c = '\x85' ||
  c = '\xa0' || c = ' ' || (' ' ≤ c && c ≤ ' ') ||
  c = ' ' || c = ' ' || c = ' ' || c = ' ' || c = '　'

/-- Line-break characters of Python `str.splitlines` (principal set). -/
def isLineBreak (c : Char) : Bool :=
  c = '\n' || c = '\x0d' || c = '\x0b' || c = '\x0c' ||
  c = '\x1c' || c = '\x1d' || c = '\x1e' || c = '\x85' || c = ' ' || c = ' '

/-- Python `str.lstrip()`. -/
def lstripL (l : List Char) : List Char := l.dropWhile isWs

/-- Python `str.rstrip()`. -/
def rstripL (l : List Char) : List Char := (l.reverse.dropWhile isWs).reverse

/-- Python `str.strip()`. -/
def stripL (l : List Char) : List Char := lstripL (rstripL l)

/-- Python `str.strip()` on `String`. -/
def pyStrip (s : String) : String := String.mk (stripL s.data)

/-- Worker for `splitlinesL`: `acc` holds the current line reversed; a
`"\r\n"` pair counts as a single break; a trailing break does not open a
final empty line. -/
def slGo (acc : List Char) : List Char → List (List Char)
  | [] => [acc.reverse]
  | c :: rest =>
      if isLineBreak c then
        match rest with
        | [] => [acc.reverse]
        | d :: r2 =>
            if c = '\x0d' && d = '\n' then
              match r2 with
              | [] => [acc.reverse]
              | e :: r3 => acc.reverse :: slGo [] (e :: r3)
            else acc.reverse :: slGo [] (d :: r2)
      else slGo (c :: acc) rest

/-- Python `str.splitlines()`. -/
def splitlinesL : List Char → List (List Char)
  | [] => []
  | c :: r => slGo [] (c :: r)

/-- Python `str.split(c)` for a single separator character (keeps empties). -/
def splitChGo (sep : Char) (acc : List Char) : List Char → List (List Char)
  | [] => [acc.reverse]
  | c :: rest => if c = sep then acc.reverse :: splitChGo sep [] rest
                 else splitChGo sep (c :: acc) rest

def splitCh (sep : Char) (l : List Char) : List (List Char) := splitChGo sep [] l

/-- Join with a single newline, inverse-ish of `splitCh '\n'`. -/
def joinNL : List (List Char) → List Char
  | [] => []
  | [l] => l
  | l :: r :: rest => l ++ '\n' :: joinNL (r :: rest)

/-- Python `str.split()` with no argument: split on whitespace runs. -/
def splitWsGo (acc : List Char) : List Char → List (List Char)
  | [] => if acc.isEmpty then [] else [acc.reverse]
  | c :: rest =>
      if isWs c then
        if acc.isEmpty then splitWsGo [] rest
        else acc.reverse :: splitWsGo [] rest
      else splitWsGo (c :: acc) rest

def splitWsL (l : List Char) : List (List Char) := splitWsGo [] l

/-- `len(s.split())` of the source. -/
def wordCountL (l : List Char) : Nat := (splitWsL l).length

def wordCount (s : String) : Nat := wordCountL s.data

/-- ASCII lower-casing, as Python `str.lower()` on the texts involved. -/
def lowerC (c : Char) : Char :=
  if 'A' ≤ c && c ≤ 'Z' then Char.ofNat (c.toNat + 32) else c

def lowerL (l : List Char) : List Char := l.map lowerC

def isDigitC (c : Char) : Bool := '0' ≤ c && c ≤ '9'
def isAlphaC (c : Char) : Bool := ('A' ≤ c && c ≤ 'Z') || ('a' ≤ c && c ≤ 'z')
def isUpperC (c : Char) : Bool := 'A' ≤ c && c ≤ 'Z'

/-- Literal prefix test. -/
def startsWithL : List Char → List Char → Bool
  | [], _ => true
  | _ :: _, [] => false
  | p :: ps, c :: cs => p = c && startsWithL ps cs

/-- Case-insensitive prefix test (ASCII). -/
def startsWithCI (pat l : List Char) : Bool := startsWithL (lowerL pat) (lowerL l)

/-- Split a list at the first case-insensitive occurrence of `pat`:
returns `(before, after-the-match)`. -/
def breakOnCI (pat : List Char) : List Char → Option (List Char × List Char)
  | [] => if startsWithCI pat [] then some ([], []) else none
  | c :: rest =>
      if startsWithCI pat (c :: rest) then some ([], (c :: rest).drop pat.length)
      else (breakOnCI pat rest).map (fun p => (c :: p.1, p.2))

/-- Prefix of `l` before the first case-insensitive occurrence of `pat`
(the whole list when there is none). -/
def takeUntilCI (pat : List Char) (l : List Char) : List Char :=
  match breakOnCI pat l with
  | some (pre, _) => pre
  | none => l

/-- Case-sensitive substring test. -/
def hasSubL (pat : List Char) : List Char → Bool
  | [] => startsWithL pat []
  | c :: rest => startsWithL pat (c :: rest) || hasSubL pat rest

/-- Case-insensitive substring test: Python `pat.lower() in s.lower()`. -/
def hasSubCI (pat s : List Char) : Bool := hasSubL (lowerL pat) (lowerL s)

/-! ### Output cleaning (src/bookgen/main.py lines 299-320) -/

/-- `END_MARK = "<<<END_OF_SUBHEADING>>>"` (line 224). -/
def END_MARK : String := "<<<END_OF_SUBHEADING>>>"

/-- Python `s.replace(END_MARK, "")`: remove each non-overlapping occurrence
in a single left-to-right scan of the original string.  Fuelled to keep the
recursion structural; `fuel = length` suffices since every step consumes at
least one character. -/
def replEndGo (fuel : Nat) (s : List Char) : List Char :=
  match fuel with
  | 0 => s
  | fuel + 1 =>
    match s with
    | [] => []
    | c :: rest =>
        if startsWithL END_MARK.data (c :: rest) then
          replEndGo fuel ((c :: rest).drop END_MARK.data.length)
        else c :: replEndGo fuel rest

def replEndL (s : List Char) : List Char := replEndGo s.length s

/-- `re.sub(r"[\U00010000-\U0010FFFF]", "", text)`: drop astral-plane chars. -/
def removeAstralL (s : List Char) : List Char := s.filter (fun c => c.toNat < 0x10000)

/-- Match `#{2,3}\s+` at the head of `s` (greedy on both parts), returning
the last consumed character and the remainder, or `none`. -/
def mdMatch (s : List Char) : Option (Char × List Char) :=
  match s with
  | '#' :: '#' :: '#' :: c :: rest =>
      if isWs c then
        let run := (c :: rest).takeWhile isWs
        some (run.getLastD (Char.ofNat 35), (c :: rest).dropWhile isWs)
      else if c = '#' then none
      else none
  | '#' :: '#' :: c :: rest =>
      if isWs c then
        let run := (c :: rest).takeWhile isWs
        some (run.getLastD (Char.ofNat 35), (c :: rest).dropWhile isWs)
      else none
  | _ => none

/-- `re.sub(r"^#{2,3}\s+", "", text, flags=re.MULTILINE)`.  The scan walks
the original string; `atStart` is true at position 0 and right after any
`'\n'` of the original string (MULTILINE `^`).  `\s+` may consume newlines,
in which case the position after the match is again a line start. -/
def mdSubGo (fuel : Nat) (atStart : Bool) (s : List Char) : List Char :=
  match fuel with
  | 0 => s
  | fuel + 1 =>
    match s with
    | [] => []
    | c :: rest =>
        if atStart then
          match mdMatch (c :: rest) with
          | some (lastC, rest2) => mdSubGo fuel (lastC = '\n') rest2
          | none => c :: mdSubGo fuel (c = '\n') rest
        else c :: mdSubGo fuel (c = '\n') rest

def mdSubL (s : List Char) : List Char := mdSubGo s.length true s

def isBulletC (c : Char) : Bool := c = '-' || c = '*' || c = '•'

/-- Match `(\s*)[-*•]\s+` at the head of `s`: returns the captured leading
whitespace (re-emitted by the replacement `\1`), the last consumed character
and the remainder. -/
def bulletMatch (s : List Char) : Option (List Char × Char × List Char) :=
  let w := s.takeWhile isWs
  match s.dropWhile isWs with
  | c :: rest =>
      if isBulletC c then
        match rest.takeWhile isWs with
        | [] => none
        | r :: rs => some (w, (r :: rs).getLastD r, rest.dropWhile isWs)
      else none
  | [] => none

/-- `BULLET_RE.sub(r"\1", text)` where
`BULLET_RE = re.compile(r"^(\s*)[-*•]\s+", re.MULTILINE)` (line 300). -/
def bulletSubGo (fuel : Nat) (atStart : Bool) (s : List Char) : List Char :=
  match fuel with
  | 0 => s
  | fuel + 1 =>
    match s with
    | [] => []
    | c :: rest =>
        if atStart then
          match bulletMatch (c :: rest) with
          | some (w, lastC, rest2) => w ++ bulletSubGo fuel (lastC = '\n') rest2
          | none => c :: bulletSubGo fuel (c = '\n') rest
        else c :: bulletSubGo fuel (c = '\n') rest

def bulletSubL (s : List Char) : List Char := bulletSubGo s.length true s

/-- Upper-case ratio test of the caps-line filter: `upper_ratio > 0.6`
with `upper_ratio = upper/letters`, exactly `5*upper > 3*letters`. -/
def capsDominant (t : List Char) : Bool :=
  let letters := t.filter isAlphaC
  5 * (letters.filter isUpperC).length > 3 * letters.length

/-- `re.match(r"^\*\*[^*].*[^*]\*\*$", t)`: the whole line is wrapped in
bold markers, with non-asterisk characters just inside both markers. -/
def fullBoldMatch (t : List Char) : Bool :=
  startsWithL "**".data t && startsWithL "**".data t.reverse &&
  decide (6 ≤ t.length) &&
  (match t.drop 2 with | c :: _ => !(c = '*') | [] => false) &&
  (match t.reverse.drop 2 with | c :: _ => !(c = '*') | [] => false)

/-- `re.sub(r"^\*\*(.*)\*\*$", r"\1", t)` when the full-bold pattern has
matched: strip the outer pair of markers. -/
def stripBold (t : List Char) : List Char := (t.drop 2).reverse.drop 2 |>.reverse

/-- One line of the cleaning loop (lines 311-319): `t = ln.rstrip()`; drop
caps-dominant lines longer than 8 characters; unwrap full-bold lines. -/
def cleanLine (ln : List Char) : Option (List Char) :=
  let t := rstripL ln
  if capsDominant t && decide (8 < t.length) then none
  else some (if fullBoldMatch t then stripBold t else t)

def processLines (ls : List (List Char)) : List (List Char) := ls.filterMap cleanLine

/-- The per-line phase of `clean_text` including the `"\n".join(lines)`. -/
def linePassL (s : List Char) : List Char := joinNL (processLines (splitlinesL s))

/-- `clean_text` (lines 302-320): sentinel removal and strip, astral-char
removal, markdown-heading removal, bullet flattening, the per-line
caps/bold loop, and the final strip. -/
def clean_text (raw : String) : String :=
  if raw = "" then ""
  else String.mk (stripL (linePassL (bulletSubL (mdSubL (removeAstralL
        (stripL (replEndL raw.data)))))))

/-! ### Configuration constants (lines 16-31) -/

def MIN_SUBSECTION_WORDS : Nat := 450
def MIN_HARD_WORDS : Nat := 200
def MAX_TRIES_PER_SUB : Nat := 5
/-- `os.getenv("MINI_HEADING_MODE", "bullet").strip().lower()`: default. -/
def MINI_MODE : String := "bullet"

/-! ### Data model -/

/-- One entry of the flattened TOC (`{"title": ..., "subs": [...]}`). -/
structure Chapter where
  title : String
  subs : List String
deriving DecidableEq, Repr

/-- The memory dict: `{"summary": ..., "claims": [...]}` plus the `angle`
key assigned inside the subsection loop (line 476). -/
structure Mem where
  summary : String
  claims : List String
  angle : String
deriving DecidableEq, Repr

/-- An element appended to the output document: `doc.add_heading(t, level)`
or one paragraph produced by `add_paragraph_with_bold` (the bold-run
splitting inside a paragraph does not change its text and is not modelled
below the paragraph granularity). -/
inductive DocItem where
  | heading (level : Nat) (text : String)
  | para (text : String)
deriving DecidableEq, Repr

/-! ### flatten_toc (lines 129-140) -/

/-- The value attached to a key of a TOC mapping item. -/
inductive TocVal where
  | list (subs : List String)
  | scalar (s : String)
  | null
deriving DecidableEq, Repr

/-- A loosely-typed TOC item: a string, a mapping, or anything else. -/
inductive TocItem where
  | str (s : String)
  | map (entries : List (String × TocVal))
  | other
deriving DecidableEq, Repr

/-- `subs = v if isinstance(v, list) else []` (line 136). -/
def tocValSubs : TocVal → List String
  | .list l => l
  | _ => []

/-- `flatten_toc` (lines 129-140): strings become chapters without subs,
each key/value pair of a mapping becomes a chapter (insertion order), any
other item raises `ValueError`. -/
def flatten_toc : List TocItem → Except String (List Chapter)
  | [] => .ok []
  | .str s :: rest => (flatten_toc rest).map (fun chs => ⟨s, []⟩ :: chs)
  | .map kvs :: rest =>
      (flatten_toc rest).map
        (fun chs => kvs.map (fun kv => ⟨kv.1, tocValSubs kv.2⟩) ++ chs)
  | .other :: rest =>
      .error "TOC item non valido: usa stringa o dict \x7bchapter: [subs...]\x7d"

/-! ### Memory parsing: update_memory_from_text (lines 193-221) -/

/-- The tail search of `re.search(r"SUMMARY:\s*([\s\S]*?)\n\s*CLAIMS:", out, re.I)`
after the `SUMMARY:` label: lazily find the first `'\n'` followed by
optional whitespace and a case-insensitive `CLAIMS:`; return the capture. -/
def findSummaryEnd : List Char → Option (List Char)
  | [] => none
  | c :: r =>
      if c = '\n' && startsWithCI "claims:".data (lstripL r) then some []
      else (findSummaryEnd r).map (fun g => c :: g)

/-- `m.group(1).strip()` of the summary regex, when it matches.  The greedy
`\s*` after the label and the lazy capture interact only inside whitespace
that the final `.strip()` removes, so the capture is modelled as the
stripped span between the label and the matched `\n\s*CLAIMS:`. -/
def summaryExtract (out : String) : Option String :=
  (breakOnCI "summary:".data out.data).bind
    (fun p => (findSummaryEnd p.2).map (fun g => String.mk (stripL g)))

/-- `re.sub(r"^-+\s*", "", ln)`: strip a leading run of dashes plus
following whitespace (only when at least one dash is present). -/
def dropDashWs (ln : List Char) : List Char :=
  match ln with
  | '-' :: _ => (ln.dropWhile (fun c => c = '-')).dropWhile isWs
  | _ => ln

/-- The claims parsed from `re.split(r"CLAIMS:\s*", out, flags=re.I)`:
`tail[1]` is the text between the first `CLAIMS:` match (whitespace after
the label consumed) and the next occurrence (or the end); its non-blank
lines are kept, stripped of a leading dash run. -/
def claimsParsed (out : String) : List String :=
  match breakOnCI "claims:".data out.data with
  | none => []
  | some (_, rest) =>
      let tail1 := takeUntilCI "claims:".data (rest.dropWhile isWs)
      ((splitlinesL tail1).filter (fun ln => !(stripL ln).isEmpty)).map
        (fun ln => String.mk (stripL (dropDashWs ln)))

/-- The parsing part of `update_memory_from_text` (lines 212-221), applied
to the summarization response `out`: `summary or previous`,
`(claims or previous)[:7]`. -/
def update_memory_parse (out : String) (mem : Mem) : Mem :=
  let summary := (summaryExtract out).getD ""
  let claims := claimsParsed out
  { mem with
    summary := if summary ≠ "" then summary else mem.summary
    claims := (if claims ≠ [] then claims else mem.claims).take 7 }

/-! ### build_angle (lines 171-191) -/

/-- `out.splitlines()[0].strip()` (line 191); `none` models the
`IndexError` raised when the response is empty (`"".splitlines() == []`). -/
def build_angle (out : String) : Option String :=
  match splitlinesL out.data with
  | [] => none
  | l :: _ => some (String.mk (stripL l))

/-! ### quick_validate_and_fix (lines 402-434) -/

/-- MULTILINE search for `^#{2,3}\s+`. -/
def hasMdGo : Bool → List Char → Bool
  | _, [] => false
  | atStart, c :: rest =>
      (atStart && (mdMatch (c :: rest)).isSome) || hasMdGo (c = '\n') rest

def hasMdHeading (s : String) : Bool := hasMdGo true s.data

/-- The character class `[A-Z0-9\s.,;:!?\"'()\\-]` of the all-caps
paragraph pattern (line 406); `Char.ofNat 39` is the apostrophe. -/
def capsClassC (c : Char) : Bool :=
  isUpperC c || isDigitC c || isWs c || c = '.' || c = ',' || c = ';' ||
  c = ':' || c = '!' || c = '?' || c = '"' || c.toNat = 39 || c = '(' ||
  c = ')' || c = '\\' || c = '-'

/-- After the leading `[A-Z0-9]`, check `[...]{20,}$` with backtracking:
some run of at least 20 class characters ends right before a `'\n'` or at
the end of the string (MULTILINE `$`). -/
def capsRunOk (n : Nat) : List Char → Bool
  | [] => decide (20 ≤ n)
  | c :: rest =>
      (decide (20 ≤ n) && c = '\n') || (capsClassC c && capsRunOk (n + 1) rest)

/-- MULTILINE search for `^[A-Z0-9][A-Z0-9\s.,;:!?\"'()\\-]{20,}$`. -/
def hasCapsParaGo : Bool → List Char → Bool
  | _, [] => false
  | atStart, c :: rest =>
      (atStart && (isUpperC c || isDigitC c) && capsRunOk 0 rest) ||
      hasCapsParaGo (c = '\n') rest

def hasCapsPara (s : String) : Bool := hasCapsParaGo true s.data

/-- The issue detection of `quick_validate_and_fix` (lines 403-410):
markdown headings, an all-caps paragraph, or a literal case-insensitive
recurrence of a recorded claim longer than 8 characters. -/
def hasIssues (text : String) (claims : List String) : Bool :=
  hasMdHeading text || hasCapsPara text ||
  claims.any (fun c => c ≠ "" && decide (8 < c.length) && hasSubCI c.data text.data)

/-- `quick_validate_and_fix` (lines 402-434) with the corrective call fed
from the oracle: no issue passes `text` through with no call; otherwise one
call is made, `fixed = call_openai(...) or text`, and `clean_text(fixed)`
is returned.  `angle` only appears inside the corrective prompt. -/
def quick_validate_and_fix (text : String) (covered_claims : List String)
    (angle : String) (O : Nat → String) (k : Nat) : String × Nat :=
  if hasIssues text covered_claims then
    let fixedResp := pyStrip (O k)
    (clean_text (if fixedResp ≠ "" then fixedResp else text), k + 1)
  else (text, k)

/-! ### Mini-heading normalization (lines 322-351) -/

/-- `re.match(r"^(chapter|day)\s+\d+:", t, flags=re.I)`. -/
def chapterDayTail (rest : List Char) : Bool :=
  match rest.takeWhile isWs with
  | [] => false
  | _ :: _ =>
      let afterWs := rest.dropWhile isWs
      match afterWs.takeWhile isDigitC with
      | [] => false
      | _ :: _ =>
          match afterWs.dropWhile isDigitC with
          | ':' :: _ => true
          | _ => false

def chapterDayMatch (t : List Char) : Bool :=
  (startsWithCI "chapter".data t && chapterDayTail (t.drop 7)) ||
  (startsWithCI "day".data t && chapterDayTail (t.drop 3))

/-- `re.match(r"^[A-Z][a-z]+$", w)`: capitalised word. -/
def isWordCap (w : List Char) : Bool :=
  match w with
  | c :: rest => isUpperC c && !rest.isEmpty && rest.all (fun d => 'a' ≤ d && d ≤ 'z')
  | [] => false

/-- `is_probable_mini_heading` (lines 322-330): 2-7 words, no terminal
punctuation, not a Chapter/Day marker, no leading digit, at least 60% of
the words capitalised (`caps/len >= 0.6`, exactly `5*caps >= 3*len`). -/
def is_probable_mini_heading (line : List Char) : Bool :=
  let t := stripL line
  let words := splitWsL t
  if t.isEmpty || words.length < 2 || 7 < words.length then false
  else if (match t.getLast? with
           | some c => c = '.' || c = '!' || c = '?'
           | none => false) then false
  else if chapterDayMatch t then false
  else if (match t with | c :: _ => isDigitC c | [] => false) then false
  else 3 * words.length ≤ 5 * (words.filter isWordCap).length

/-- The merged line of `normalize_mini_headings` (lines 340-343), per the
configured style mode. -/
def mergeMini (cur nxt : List Char) : List Char :=
  if MINI_MODE = "bold" then "**".data ++ cur ++ ".** ".data ++ nxt
  else "• **".data ++ cur ++ "** — ".data ++ nxt

/-- The index loop of `normalize_mini_headings` (lines 335-350), fuelled by
the number of lines: a probable mini-heading followed by a non-empty
non-mini line is merged with it and the following blank lines skipped;
otherwise the original line is copied. -/
def nmGo (fuel : Nat) (lines : List (List Char)) : List (List Char) :=
  match fuel with
  | 0 => lines
  | fuel + 1 =>
    match lines with
    | [] => []
    | [l] => [l]
    | l1 :: l2 :: rest =>
        let cur := stripL l1
        let nxt := stripL l2
        if is_probable_mini_heading cur && !nxt.isEmpty &&
           !is_probable_mini_heading nxt then
          mergeMini cur nxt :: nmGo fuel (rest.dropWhile (fun l => (stripL l).isEmpty))
        else l1 :: nmGo fuel (l2 :: rest)

def normalize_mini_headings (text : String) : String :=
  let lines := splitlinesL text.data
  String.mk (joinNL (nmGo lines.length lines))

/-! ### write_subsection (lines 353-399) -/

/-- `re.split(r"(?<=[.!?])\s+", t)`: split at whitespace runs preceded by
sentence punctuation; `prev` is the previous character of the original
string (`' '` initially, so no split can occur at position 0). -/
def sentenceSplitGo (fuel : Nat) (acc : List Char) (prev : Char)
    (s : List Char) : List (List Char) :=
  match fuel with
  | 0 => [acc.reverse]
  | fuel + 1 =>
    match s with
    | [] => [acc.reverse]
    | c :: rest =>
        if isWs c && (prev = '.' || prev = '!' || prev = '?') then
          acc.reverse :: sentenceSplitGo fuel [] ' ' (rest.dropWhile isWs)
        else sentenceSplitGo fuel (c :: acc) c rest

def sentenceSplit (t : List Char) : List (List Char) :=
  sentenceSplitGo t.length [] ' ' t

/-- The paragraphs produced for one `"\n"`-separated piece of the body
(lines 389-399): blank pieces are skipped; pieces above 180 words are
split at sentence boundaries, keeping non-blank stripped chunks. -/
def paraOfLine (p : List Char) : List (List Char) :=
  let t := stripL p
  if t.isEmpty then []
  else if 180 < wordCountL t then
    (sentenceSplit t).filterMap
      (fun ch => let c := stripL ch; if c.isEmpty then none else some c)
  else [t]

/-- The body paragraphs written by `write_subsection` (lines 386-399), in
order, after `normalize_mini_headings`. -/
def paragraphTexts (body : String) : List String :=
  (((splitCh '\n' (normalize_mini_headings body).data).map paraOfLine).flatten).map
    String.mk

/-- `write_subsection` as the sequence of document items it appends: one
paragraph per accepted chunk, no headings. -/
def write_subsection (body : String) : List DocItem :=
  (paragraphTexts body).map DocItem.para

/-! ### The run driver (main, lines 437-530) -/

/-- `has_real_prose = any(len(ln.split()) > 5 for ln in lines)` (line 488). -/
def hasRealProse (cleaned : String) : Bool :=
  (splitlinesL cleaned.data).any (fun ln => decide (5 < wordCountL ln))

/-- The line-removal predicate of the echo filter (lines 491-495): the
stripped, lower-cased line equals the chapter or subsection title, or the
stripped line matches `Chapter N:` / `Day N:`. -/
def isEchoLine (chTitle sub : String) (ln : List Char) : Bool :=
  lowerL (stripL ln) = lowerL (stripL chTitle.data) ||
  lowerL (stripL ln) = lowerL (stripL sub.data) ||
  chapterDayMatch (stripL ln)

/-- The looser echo filter (lines 484-495): drop echoed chapter/subsection
titles and `Chapter N:`/`Day N:` lines, but only when some line has more
than 5 words. -/
def echoValidate (chTitle sub cleaned : String) : String :=
  let lines := splitlinesL cleaned.data
  if hasRealProse cleaned then
    String.mk (joinNL (lines.filter (fun ln => !isEchoLine chTitle sub ln)))
  else cleaned

/-- The hard guard (lines 497-499): below `MIN_HARD_WORDS` the attempt is
treated as an empty failure. -/
def hardGuard (v : String) : String :=
  if wordCount v < MIN_HARD_WORDS then "" else v

/-- One generation attempt of the retry loop, applied to the (stripped)
completion text: sanitize, echo-filter, hard guard. -/
def attemptText (chT sub resp : String) : String :=
  hardGuard (echoValidate chT sub (clean_text resp))

/-- The retry loop (lines 478-505), fuelled by the remaining tries: each
iteration consumes one completion; an attempt with at least
`MIN_SUBSECTION_WORDS` words is accepted immediately. -/
def subLoopGo (O : Nat → String) (chT sub : String) :
    Nat → Nat → String × Nat
  | 0, k => ("", k)
  | t + 1, k =>
      let v := attemptText chT sub (pyStrip (O k))
      if v ≠ "" && decide (MIN_SUBSECTION_WORDS ≤ wordCount v) then (v, k + 1)
      else subLoopGo O chT sub t (k + 1)

def subLoop (O : Nat → String) (chT sub : String) (k : Nat) : String × Nat :=
  subLoopGo O chT sub MAX_TRIES_PER_SUB k

/-- One subsection unit (lines 472-527): heading, angle derivation (`none`
models the `IndexError` of `build_angle` on an empty planning response),
retry loop, forced-expansion fallback, corrective fix, body paragraphs,
memory refresh.  Returns the appended document items, the new memory and
the next call index. -/
def runSubUnit (O : Nat → String) (chT sub : String) (mem : Mem) (k : Nat) :
    Option (List DocItem × Mem × Nat) :=
  match build_angle (pyStrip (O k)) with
  | none => none
  | some ang =>
      let mem1 : Mem := { mem with angle := ang }
      let lk := subLoop O chT sub (k + 1)
      let ok2 : String × Nat :=
        if lk.1 = "" then (clean_text (pyStrip (O lk.2)), lk.2 + 1) else lk
      let fk := quick_validate_and_fix ok2.1 mem1.claims mem1.angle O ok2.2
      let mem2 := update_memory_parse (pyStrip (O fk.2)) mem1
      some (DocItem.heading 2 sub :: write_subsection fk.1, mem2, fk.2 + 1)

/-- One chapter-only unit (lines 462-470): single completion at chapter
size, sanitize, corrective fix (with `angle=None`), body paragraphs,
memory refresh.  This path never raises. -/
def runChapterUnit (O : Nat → String) (mem : Mem) (k : Nat) :
    List DocItem × Mem × Nat :=
  let cleaned := clean_text (pyStrip (O k))
  let fk := quick_validate_and_fix cleaned mem.claims "" O (k + 1)
  let mem2 := update_memory_parse (pyStrip (O fk.2)) mem
  (write_subsection fk.1, mem2, fk.2 + 1)

/-- The subsection loop of one chapter, in outline order. -/
def runSubs (O : Nat → String) (chT : String) :
    List String → Mem → Nat → Option (List DocItem × Mem × Nat)
  | [], mem, k => some ([], mem, k)
  | s :: rest, mem, k =>
      (runSubUnit O chT s mem k).bind fun r1 =>
        (runSubs O chT rest r1.2.1 r1.2.2).map fun r2 =>
          (r1.1 ++ r2.1, r2.2)

/-- The chapter loop of `main` (lines 458-527): a level-1 heading per
chapter, then either the chapter-only path or the subsection loop. -/
def mainGo (O : Nat → String) :
    List Chapter → Mem → Nat → Option (List DocItem × Mem × Nat)
  | [], mem, k => some ([], mem, k)
  | ch :: rest, mem, k =>
      (if ch.subs = [] then some (runChapterUnit O mem k)
       else runSubs O ch.title ch.subs mem k).bind fun r1 =>
        (mainGo O rest r1.2.1 r1.2.2).map fun r2 =>
          ((DocItem.heading 1 ch.title :: r1.1) ++ r2.1, r2.2)

/-- The whole run on an already-flattened outline: `ensure_doc` writes the
level-0 title heading, memory starts empty, and the chapters are processed
in order.  `none` models a run aborted by the `IndexError` in
`build_angle`.  Prompt texts influence only the remote service, which is
modelled by the oracle `O`. -/
def mainModel (O : Nat → String) (title : String) (chapters : List Chapter) :
    Option (List DocItem × Mem × Nat) :=
  (mainGo O chapters ⟨"", [], ""⟩ 0).map
    (fun r => (DocItem.heading 0 title :: r.1, r.2.1, r.2.2))

/-! ### Prompt builders (lines 226-297) -/

/-- `chapter_only_prompt` (lines 269-297): the f-string template rendered
by concatenation.  It takes no memory argument in the source. -/
def chapter_only_prompt (master persona title chapters_list chapter : String) :
    String :=
  "\nYou are an expert ghostwriter.\n\n--- MASTER PROMPT (DO NOT OUTPUT) ---\n"
  ++ master ++ "\n\n--- BUYER PERSONA & STYLE (DO NOT OUTPUT) ---\n" ++ persona
  ++ "\n\nSTYLE CLAMP (MANDATORY):\n- Warm, simple, accessible; not academic."
  ++ "\n- No \"Chapter X:\" lines inside the body, no placeholders, no invented headings."
  ++ "\n- Bold only short phrases (≤ 8 words), never whole paragraphs."
  ++ "\n- Mini-topics allowed as bold lead-ins or compact bullets only if they truly add clarity."
  ++ "\nThe text should feel like a flowing conversation. Avoid over-fragmenting ideas into subheadings."
  ++ "\n\n--- BOOK CONTEXT ---\nTitle: " ++ title
  ++ "\n\nGLOBAL CHAPTER LIST:\n" ++ chapters_list
  ++ "\n\nCURRENT CHAPTER (no subheadings): " ++ chapter
  ++ "\n\nOUTPUT:\n- Write ~2,000–3,000 words of continuous, engaging prose."
  ++ "\n- End cleanly with prose, then on a new line output exactly: "
  ++ END_MARK ++ "\n"

/-- The prompt constructed for a chapter-only unit at main line 463, viewed
as a function of the run state at that point, including the memory record
that is in scope there but not passed to `chapter_only_prompt`. -/
def chapterUnitPrompt (master persona title chapters_list chTitle : String)
    (mem : Mem) : String :=
  chapter_only_prompt master persona title chapters_list chTitle

/-! ### Observations used by the theorems -/

/-- The level-1 and level-2 headings of a document, in order. -/
def headings12 (doc : List DocItem) : List (Nat × String) :=
  doc.filterMap (fun it =>
    match it with
    | .heading l t => if l = 1 || l = 2 then some (l, t) else none
    | .para _ => none)

/-- The heading sequence an outline should produce: one level-1 heading per
chapter, then one level-2 heading per subsection, in order. -/
def outlineHeadings (chs : List Chapter) : List (Nat × String) :=
  (chs.map (fun ch => (1, ch.title) :: ch.subs.map (fun s => (2, s)))).flatten

/-- `already clean` for the sanitizer: every individual pass of
`clean_text` leaves the text unchanged. -/
def isCleanText (y : String) : Bool :=
  y == "" ||
  (String.mk (replEndL y.data) == y && pyStrip y == y &&
   String.mk (removeAstralL y.data) == y && String.mk (mdSubL y.data) == y &&
   String.mk (bulletSubL y.data) == y && String.mk (linePassL y.data) == y)

/-- Modelled from the spec (section 4.2): `deriveAngle ... returns the
first non-empty line of the response, trimmed` — the first line of the
response whose stripped content is non-empty, stripped. -/
def deriveAngle_spec (out : String) : Option String :=
  ((splitlinesL out.data).find? (fun l => !(stripL l).isEmpty)).map
    (fun l => String.mk (stripL l))

/-! ## Helper lemmas -/

theorem breakOnCI_isSome_of_suffix {pat : List Char} :
    ∀ {s t : List Char}, t <:+ s → startsWithCI pat t = true →
      (breakOnCI pat s).isSome = true := by
  intro s
  induction s with
  | nil =>
      intro t ht hs
      rw [List.suffix_nil.mp ht] at hs
      simp [breakOnCI, hs]
  | cons c r ih =>
      intro t ht hs
      by_cases h : startsWithCI pat (c :: r) = true
      · simp [breakOnCI, h]
      · obtain ⟨pre, hpre⟩ := ht
        cases pre with
        | nil =>
            simp only [List.nil_append] at hpre
            rw [hpre] at hs
            exact absurd hs h
        | cons p ps =>
            have hr : t <:+ r := ⟨ps, by simpa using congrArg List.tail hpre⟩
            have := ih hr hs
            simp only [breakOnCI, h, if_neg]
            simpa using this

theorem breakOnCI_suffix {pat : List Char} :
    ∀ {s a b : List Char}, breakOnCI pat s = some (a, b) → b <:+ s := by
  intro s
  induction s with
  | nil =>
      intro a b h
      by_cases hs : startsWithCI pat [] = true <;> simp [breakOnCI, hs] at h
      exact h.2 ▸ List.nil_suffix
  | cons c r ih =>
      intro a b h
      by_cases hs : startsWithCI pat (c :: r) = true
      · rw [breakOnCI, if_pos hs] at h
        have hb : b = (c :: r).drop pat.length := by
          have := Option.some.inj h
          exact (congrArg Prod.snd this).symm
        exact hb ▸ List.drop_suffix _ _
      · rw [breakOnCI, if_neg hs] at h
        cases hbr : breakOnCI pat r with
        | none => rw [hbr] at h; simp at h
        | some p =>
            rw [hbr] at h
            simp only [Option.map_some'] at h
            have hb : b = p.2 := (congrArg Prod.snd (Option.some.inj h)).symm
            exact hb ▸ (ih (by rw [hbr])).trans (List.suffix_cons c r)

theorem findSummaryEnd_claims :
    ∀ {s g : List Char}, findSummaryEnd s = some g →
      ∃ t, t <:+ s ∧ startsWithCI "claims:".data (lstripL t) = true := by
  intro s
  induction s with
  | nil => intro g h; simp [findSummaryEnd] at h
  | cons c r ih =>
      intro g h
      by_cases hc : (c = '\n' && startsWithCI "claims:".data (lstripL r)) = true
      · exact ⟨r, List.suffix_cons c r, (Bool.and_eq_true ..▸ hc).2⟩
      · rw [findSummaryEnd, if_neg hc] at h
        cases hg : findSummaryEnd r with
        | none => rw [hg] at h; simp at h
        | some g' =>
            obtain ⟨t, hts, hsw⟩ := ih hg
            exact ⟨t, hts.trans (List.suffix_cons c r), hsw⟩

/-- When no `CLAIMS:` label occurs anywhere in the response, the summary
regex cannot match either (its tail requires a `CLAIMS:` label). -/
theorem summaryExtract_none_of_no_claims {out : String}
    (h : breakOnCI "claims:".data out.data = none) : summaryExtract out = none := by
  unfold summaryExtract
  cases hb : breakOnCI "summary:".data out.data with
  | none => rfl
  | some p =>
      cases hf : findSummaryEnd p.2 with
      | none => simp [hf]
      | some g =>
          exfalso
          obtain ⟨t, hts, hsw⟩ := findSummaryEnd_claims hf
          have hsfx : p.2 <:+ out.data := breakOnCI_suffix (by rw [hb])
          have h1 : lstripL t <:+ out.data :=
            (List.dropWhile_suffix _).trans (hts.trans hsfx)
          have h2 := breakOnCI_isSome_of_suffix h1 hsw
          rw [h] at h2
          simp at h2

/-! ## Claims -/

/-- C10: the prompt built for a chapter with no subsections is identical
for any two memory states — `chapter_only_prompt` receives neither the
rolling summary, nor the claims list, nor an angle, so memory cannot
influence the chapter-only completion request. -/
theorem c10_chapter_prompt_memory_independent
    (master persona title chapters_list chTitle : String) (mem₁ mem₂ : Mem) :
    chapterUnitPrompt master persona title chapters_list chTitle mem₁ =
      chapterUnitPrompt master persona title chapters_list chTitle mem₂ := rfl

/-- C5 (counterexample): a two-key mapping item is neither a string nor a
single-key mapping, yet `flatten_toc` does not fail on it — it produces
one chapter per key, refuting the claim that any such item yields a
malformed-outline error. -/
theorem c5_flatten_toc_counterexample :
    flatten_toc [TocItem.map [("A", TocVal.list ["x"]), ("B", TocVal.scalar "y")]] =
      Except.ok [⟨"A", ["x"]⟩, ⟨"B", []⟩] := rfl

/-- C5 (amended): a bare string becomes a chapter with no subsections; a
mapping contributes one chapter per key/value pair in order, with the
mapped sequence as subsections (empty when the value is not a sequence) —
in particular an empty mapping contributes no chapter and a multi-key
mapping several; chapters are never merged or reordered; only an item
that is neither a string nor a mapping raises the malformed-outline
error. -/
theorem c5_flatten_toc_amended (items : List TocItem) :
    (TocItem.other ∉ items →
      flatten_toc items = Except.ok ((items.map (fun it =>
        match it with
        | .str s => [⟨s, []⟩]
        | .map kvs => kvs.map (fun kv => ⟨kv.1, tocValSubs kv.2⟩)
        | .other => [])).flatten)) ∧
    (TocItem.other ∈ items →
      flatten_toc items =
        Except.error "TOC item non valido: usa stringa o dict \x7bchapter: [subs...]\x7d") := by
  induction items with
  | nil => exact ⟨fun _ => rfl, fun h => absurd h (List.not_mem_nil _)⟩
  | cons it rest ih =>
      constructor
      · intro hno
        have hit : it ≠ TocItem.other := fun h => hno (h ▸ List.mem_cons_self it rest)
        have hrest := ih.1 (fun h => hno (List.mem_cons_of_mem it h))
        cases it with
        | str s => rw [flatten_toc, hrest]; rfl
        | map kvs => rw [flatten_toc, hrest]; rfl
        | other => exact absurd rfl hit
      · intro hmem
        cases it with
        | other => rfl
        | str s =>
            have hrest := ih.2 (by
              rcases List.mem_cons.mp hmem with h | h
              · exact absurd h.symm (by simp)
              · exact h)
            rw [flatten_toc, hrest]; rfl
        | map kvs =>
            have hrest := ih.2 (by
              rcases List.mem_cons.mp hmem with h | h
              · exact absurd h.symm (by simp)
              · exact h)
            rw [flatten_toc, hrest]; rfl

/-- C1 (counterexample): on a summarization response that contains a
`SUMMARY:` block but no `CLAIMS:` block, the claim says the new summary is
adopted; the code retains the previous summary, because the summary regex
only matches when a `CLAIMS:` label follows the block. -/
theorem c1_memory_refresh_counterexample :
    update_memory_parse "SUMMARY:\nA new summary of the section."
        ⟨"previous summary", ["previous claim"], ""⟩ =
      ⟨"previous summary", ["previous claim"], ""⟩ := by decide

/-- C1 (amended): the refresh keeps at most 7 claims; it retains the
previous summary whenever the summary regex does not match; it retains the
previous claims (truncated to 7) when no bullet line parses after
`CLAIMS:`, and replaces them (truncated to 7) otherwise; and on a response
with no `CLAIMS:` block it keeps both the prior claims and the prior
summary — even when a `SUMMARY:` block is present, since the summary is
only extracted when a `CLAIMS:` label follows it. -/
theorem c1_memory_refresh (out : String) (mem : Mem) :
    (update_memory_parse out mem).claims.length ≤ 7 ∧
    (summaryExtract out = none →
      (update_memory_parse out mem).summary = mem.summary) ∧
    (claimsParsed out = [] →
      (update_memory_parse out mem).claims = mem.claims.take 7) ∧
    (claimsParsed out ≠ [] →
      (update_memory_parse out mem).claims = (claimsParsed out).take 7) ∧
    (breakOnCI "claims:".data out.data = none →
      (update_memory_parse out mem).summary = mem.summary ∧
      (update_memory_parse out mem).claims = mem.claims.take 7) := by
  refine ⟨?_, ?_, ?_, ?_, ?_⟩
  · simp only [update_memory_parse]
    exact List.length_take_le ..
  · intro h; simp [update_memory_parse, h]
  · intro h; simp [update_memory_parse, h]
  · intro h; simp [update_memory_parse, h]
  · intro h
    have hs := summaryExtract_none_of_no_claims h
    have hc : claimsParsed out = [] := by unfold claimsParsed; rw [h]
    exact ⟨by simp [update_memory_parse, hs], by simp [update_memory_parse, hc]⟩

/-- C1 (witness): a response with no labels keeps summary and claims; a
response with a parsed bullet line replaces the claims. -/
theorem c1_memory_refresh_witness :
    (update_memory_parse "General remarks with no labels."
        ⟨"old summary", ["a", "b"], ""⟩).summary = "old summary" ∧
    (update_memory_parse "General remarks with no labels."
        ⟨"old summary", ["a", "b"], ""⟩).claims = (["a", "b"] : List String).take 7 ∧
    (update_memory_parse "SUMMARY: s\nCLAIMS:\n- one claim"
        ⟨"o", [], ""⟩).claims =
      (claimsParsed "SUMMARY: s\nCLAIMS:\n- one claim").take 7 := by
  refine ⟨?_, ?_, ?_⟩
  · exact ((c1_memory_refresh _ _).2.2.2.2 (by decide)).1
  · exact ((c1_memory_refresh _ _).2.2.2.2 (by decide)).2
  · exact (c1_memory_refresh _ _).2.2.2.1 (by decide)

/-- C7 (counterexample): the claim says that when the corrective call
returns empty, the original flagged text is used; in the code the original
text is re-sanitized, and sanitization drops the flagged all-caps line, so
the result is empty rather than the original. -/
theorem c7_corrective_pass_counterexample :
    (quick_validate_and_fix "THIS IS A LONG ALL CAPS PARAGRAPH LINE." [] ""
        (fun _ => "") 0).1 = "" ∧
    ("" : String) ≠ "THIS IS A LONG ALL CAPS PARAGRAPH LINE." :=
  ⟨by decide, by decide⟩

/-- C7 (amended): with no detected issue (markdown heading, all-caps
paragraph line, or case-insensitive recurrence of a recorded claim longer
than 8 characters) the text passes through unchanged with no completion
call; with an issue, exactly one corrective call is made and the result is
the sanitized corrective response — or, when that response is empty, the
sanitized original text, which re-sanitization may further reduce. -/
theorem c7_corrective_pass (text : String) (claims : List String)
    (angle : String) (O : Nat → String) (k : Nat) :
    (hasIssues text claims = false →
      quick_validate_and_fix text claims angle O k = (text, k)) ∧
    (hasIssues text claims = true →
      quick_validate_and_fix text claims angle O k =
        (clean_text (if pyStrip (O k) ≠ "" then pyStrip (O k) else text),
          k + 1)) := by
  constructor <;> intro h <;> simp [quick_validate_and_fix, h]

/-- C7 (witness): a clean text passes through with no call; a text with a
markdown heading triggers exactly one call. -/
theorem c7_corrective_pass_witness :
    quick_validate_and_fix "Calm prose with no issues." [] ""
        (fun _ => "resp") 3 = ("Calm prose with no issues.", 3) ∧
    quick_validate_and_fix "x\n## Heading" [] "" (fun _ => "") 0 =
      (clean_text (if pyStrip ((fun _ : Nat => "") 0) ≠ ""
        then pyStrip ((fun _ : Nat => "") 0) else "x\n## Heading"), 1) := by
  constructor
  · exact (c7_corrective_pass _ _ _ _ _).1 (by decide)
  · exact (c7_corrective_pass _ _ _ _ _).2 (by decide)

/-- Auxiliary for C6: a text on which every sanitization pass is the
identity is a fixed point of `clean_text`. -/
theorem clean_text_fixed_of_clean {y : String} (h : isCleanText y = true) :
    clean_text y = y := by
  by_cases hy : y = ""
  · rw [hy]; rfl
  · simp only [isCleanText, beq_iff_eq, hy, Bool.or_eq_true, Bool.and_eq_true,
      false_or] at h
    obtain ⟨⟨⟨⟨⟨h1, h2⟩, h3⟩, h4⟩, h5⟩, h6⟩ := h
    have e1 : replEndL y.data = y.data := congrArg String.data h1
    have e2 : stripL y.data = y.data := congrArg String.data h2
    have e3 : removeAstralL y.data = y.data := congrArg String.data h3
    have e4 : mdSubL y.data = y.data := congrArg String.data h4
    have e5 : bulletSubL y.data = y.data := congrArg String.data h5
    have e6 : linePassL y.data = y.data := congrArg String.data h6
    rw [clean_text, if_neg hy, e1, e2, e3, e4, e5, e6, e2]

/-- C6 (counterexample): the sanitizer is not idempotent — flattening the
bullet `- ## x` exposes a markdown heading that only the second
application removes. -/
theorem c6_clean_text_counterexample :
    clean_text (clean_text "- ## x") ≠ clean_text "- ## x" := by decide

/-- C6 (amended): the sanitizer is idempotent on already-clean text: when
its output is a text that every individual sanitization pass (sentinel
removal, strip, astral-character removal, markdown-heading removal, bullet
flattening, the caps/bold line pass) leaves unchanged, a second
application returns it unchanged; on general input a second application
can rewrite further. -/
theorem c6_clean_text_idempotent (x : String)
    (h : isCleanText (clean_text x) = true) :
    clean_text (clean_text x) = clean_text x :=
  clean_text_fixed_of_clean h

/-- C6 (witness): a plain sentence is already clean after one pass and the
second pass is the identity on it. -/
theorem c6_clean_text_witness :
    isCleanText (clean_text "Hello world.") = true ∧
    clean_text (clean_text "Hello world.") = clean_text "Hello world." :=
  ⟨by decide, c6_clean_text_idempotent "Hello world." (by decide)⟩

/-! ### Substring tracking through the sanitizer passes (for C9)

The sentinel contains no whitespace and no newline, so an occurrence of it
in sanitized text cannot span a point where a pass deleted characters:
each deletion happens at a line start (its left neighbour in the output is
a newline or the start of text) or removes only edge whitespace or whole
lines.  The lemmas below push an occurrence in the output of each pass
back to an occurrence in its input. -/

theorem startsWithL_iff_pref :
    ∀ {P l : List Char}, startsWithL P l = true ↔ P <+: l := by
  intro P
  induction P with
  | nil => intro l; simp [startsWithL, List.nil_prefix]
  | cons p ps ih =>
      intro l
      cases l with
      | nil =>
          constructor
          · intro h; simp [startsWithL] at h
          · intro h; have := List.prefix_nil.mp h; simp at this
      | cons c cs =>
          simp only [startsWithL, Bool.and_eq_true, decide_eq_true_eq, ih]
          constructor
          · rintro ⟨rfl, h⟩; exact (List.prefix_cons_inj p).mpr h
          · intro h
            rcases List.prefix_cons_iff.mp h with h | ⟨t, ht, hp⟩
            · simp at h
            · obtain ⟨h1, h2⟩ := List.cons.injEq .. ▸ ht
              exact ⟨h1, h2 ▸ hp⟩

theorem hasSubL_iff_inf :
    ∀ {P l : List Char}, hasSubL P l = true ↔ P <:+: l := by
  intro P l
  induction l with
  | nil =>
      simp only [hasSubL, startsWithL_iff_pref]
      exact ⟨fun h => h.isInfix,
        fun h => (List.eq_nil_of_infix_nil h) ▸ List.nil_prefix⟩
  | cons c cs ih =>
      simp only [hasSubL, Bool.or_eq_true, startsWithL_iff_pref, ih,
        List.infix_cons_iff]

theorem hasSubL_of_inf {P a b : List Char} (h : a <:+: b)
    (hs : hasSubL P a = true) : hasSubL P b = true :=
  hasSubL_iff_inf.mpr ((hasSubL_iff_inf.mp hs).trans h)

/-- Peeling an all-whitespace chunk off the left of an occurrence of a
pattern whose first character is not whitespace. -/
theorem hasSubL_append_ws_left {p : Char} {P' : List Char}
    (hp : isWs p = false) :
    ∀ {w l : List Char}, (∀ x ∈ w, isWs x = true) →
      hasSubL (p :: P') (w ++ l) = true → hasSubL (p :: P') l = true := by
  intro w
  induction w with
  | nil => intro l _ h; simpa using h
  | cons x w' ih =>
      intro l hw h
      simp only [List.cons_append, hasSubL, Bool.or_eq_true] at h
      rcases h with h | h
      · exfalso
        simp only [startsWithL, Bool.and_eq_true, decide_eq_true_eq] at h
        have hx : isWs x = true := hw x (List.mem_cons_self x w')
        rw [← h.1, hp] at hx
        exact Bool.false_ne_true hx
      · exact ih (fun y hy => hw y (List.mem_cons_of_mem x hy)) h

/-- A prefix occurrence that cannot contain a newline stops before one. -/
theorem startsWithL_append_nl {P : List Char} (hP : '\n' ∉ P) :
    ∀ {a j : List Char}, startsWithL P (a ++ '\n' :: j) = true → P <+: a := by
  induction P with
  | nil => intro a j _; exact List.nil_prefix
  | cons p ps ih =>
      intro a j h
      cases a with
      | nil =>
          simp only [List.nil_append, startsWithL, Bool.and_eq_true,
            decide_eq_true_eq] at h
          exact absurd (h.1 ▸ List.mem_cons_self p ps) hP
      | cons x a' =>
          simp only [List.cons_append, startsWithL, Bool.and_eq_true,
            decide_eq_true_eq] at h
          rw [h.1]
          exact (List.prefix_cons_inj x).mpr
            (ih (fun hm => hP (List.mem_cons_of_mem p hm)) h.2)

/-- An occurrence of a newline-free pattern in `a ++ '\n' :: j` lies
entirely in `a` or entirely in `j`. -/
theorem hasSubL_append_nl {P : List Char} (hP : '\n' ∉ P) :
    ∀ {a j : List Char}, hasSubL P (a ++ '\n' :: j) = true →
      hasSubL P a = true ∨ hasSubL P j = true := by
  intro a
  induction a with
  | nil =>
      intro j h
      simp only [List.nil_append, hasSubL, Bool.or_eq_true] at h
      rcases h with h | h
      · rcases P with _ | ⟨p, ps⟩
        · exact Or.inl rfl
        · simp only [startsWithL, Bool.and_eq_true, decide_eq_true_eq] at h
          exact absurd (h.1 ▸ List.mem_cons_self p ps) hP
      · exact Or.inr h
  | cons x a' ih =>
      intro j h
      simp only [List.cons_append, hasSubL, Bool.or_eq_true] at h
      rcases h with h | h
      · have := startsWithL_append_nl hP (a := x :: a') h
        exact Or.inl (hasSubL_iff_inf.mpr this.isInfix)
      · rcases ih h with h | h
        · exact Or.inl (hasSubL_of_inf (List.infix_cons (List.infix_rfl)) h)
        · exact Or.inr h

/-- An occurrence of a non-empty newline-free pattern in a newline-join
lies inside one of the joined pieces. -/
theorem hasSubL_joinNL {P : List Char} (hP : '\n' ∉ P) (hne : P ≠ []) :
    ∀ ls, hasSubL P (joinNL ls) = true → ∃ l ∈ ls, hasSubL P l = true := by
  intro ls
  induction ls with
  | nil =>
      intro h
      rcases P with _ | ⟨p, ps⟩
      · exact absurd rfl hne
      · simp [joinNL, hasSubL, startsWithL] at h
  | cons l rest ih =>
      intro h
      cases rest with
      | nil => exact ⟨l, List.mem_cons_self l [], by simpa [joinNL] using h⟩
      | cons r rs =>
          have hj : joinNL (l :: r :: rs) = l ++ '\n' :: joinNL (r :: rs) := rfl
          rw [hj] at h
          rcases hasSubL_append_nl hP h with h | h
          · exact ⟨l, List.mem_cons_self l _, h⟩
          · obtain ⟨l', hl', hs⟩ := ih h
            exact ⟨l', List.mem_cons_of_mem l hl', hs⟩

/-- Unfolding of the `splitlines` worker on a cons cell. -/
theorem slGo_cons (acc : List Char) (c : Char) (rest : List Char) :
    slGo acc (c :: rest) =
      if isLineBreak c then
        match rest with
        | [] => [acc.reverse]
        | d :: r2 =>
            if c = '\x0d' && d = '\n' then
              match r2 with
              | [] => [acc.reverse]
              | e :: r3 => acc.reverse :: slGo [] (e :: r3)
            else acc.reverse :: slGo [] (d :: r2)
      else slGo (c :: acc) rest := by
  rw [slGo.eq_def]

/-- Auxiliary for C8: the first line produced by the `splitlines` worker
extends the pending accumulator. -/
theorem slGo_first : ∀ (cs acc : List Char),
    ∃ h t, slGo acc cs = (acc.reverse ++ h) :: t := by
  intro cs
  induction cs with
  | nil => intro acc; exact ⟨[], [], by simp [slGo]⟩
  | cons c rest ih =>
      intro acc
      rw [slGo_cons]
      by_cases hb : isLineBreak c = true
      · cases rest with
        | nil => exact ⟨[], [], by simp [hb]⟩
        | cons d r2 =>
            by_cases hcd : (c = '\x0d' && d = '\n') = true
            · cases r2 with
              | nil => exact ⟨[], [], by simp [hb, hcd]⟩
              | cons e r3 => exact ⟨[], slGo [] (e :: r3), by simp [hb, hcd]⟩
            · exact ⟨[], slGo [] (d :: r2), by simp [hb, hcd]⟩
      · rw [if_neg hb]
        obtain ⟨h, t, hht⟩ := ih (c :: acc)
        refine ⟨c :: h, t, ?_⟩
        rw [hht, List.reverse_cons, List.append_assoc]
        rfl

/-- Auxiliary for C8: if stripping a list yields `[]`, every element is
whitespace. -/
theorem all_ws_of_stripL_eq_nil {l : List Char} (h : stripL l = []) :
    ∀ y ∈ l, isWs y = true := by
  intro y hy
  have hdecomp : l = rstripL l ++ (l.reverse.takeWhile isWs).reverse := by
    conv_lhs => rw [← l.reverse_reverse,
      ← List.takeWhile_append_dropWhile (p := isWs) (l := l.reverse)]
    rw [List.reverse_append]
    rfl
  rw [hdecomp] at hy
  rcases List.mem_append.mp hy with hmem | hmem
  · exact List.dropWhile_eq_nil_iff.mp h y hmem
  · exact List.mem_takeWhile_imp (List.mem_reverse.mp hmem)

/-- Auxiliary for C8: a non-empty stripped list starts with a
non-whitespace character. -/
theorem head_not_ws_of_stripped {c : Char} {cs : List Char}
    (h : stripL (c :: cs) = c :: cs) : isWs c = false := by
  by_contra hw
  simp only [Bool.not_eq_false] at hw
  have hc : c ∈ c :: cs := List.mem_cons_self c cs
  have : stripL (c :: cs) ≠ c :: cs := by
    intro heq
    have hlen1 : (c :: cs).length ≤ (rstripL (c :: cs)).length := by
      conv_lhs => rw [← heq]
      exact (List.dropWhile_suffix _).length_le
    have hpre : rstripL (c :: cs) <+: c :: cs := by
      have := List.reverse_prefix.mpr (List.dropWhile_suffix (l := (c :: cs).reverse) isWs)
      rwa [List.reverse_reverse] at this
    have hr : rstripL (c :: cs) = c :: cs :=
      List.IsPrefix.eq_of_length hpre (le_antisymm hpre.length_le hlen1)
    have hls : lstripL (c :: cs) = c :: cs := by
      have := heq
      unfold stripL at this
      rwa [hr] at this
    have : List.dropWhile isWs cs = c :: cs := by
      have h2 := hls
      unfold lstripL at h2
      rwa [List.dropWhile_cons_of_pos hw] at h2
    have hlen : (List.dropWhile isWs cs).length ≤ cs.length :=
      (List.dropWhile_suffix _).length_le
    rw [this] at hlen
    simp at hlen
  exact this h

/-- Auxiliary for C8: splitting a stripped non-empty string into lines
yields a first line whose stripped content is non-empty. -/
theorem splitlines_stripped_head {out : String}
    (h1 : pyStrip out = out) (h2 : out ≠ "") :
    ∃ l t, splitlinesL out.data = l :: t ∧ (stripL l).isEmpty = false := by
  have hdata : stripL out.data = out.data := congrArg String.data h1
  have hne : out.data ≠ [] := by
    intro hnil
    exact h2 (by cases out with | mk d => simp_all)
  obtain ⟨c, cs, hcs⟩ := List.exists_cons_of_ne_nil hne
  rw [hcs] at hdata
  have hnw : isWs c = false := head_not_ws_of_stripped hdata
  have hnb : isLineBreak c = false := by
    revert hnw
    simp only [isLineBreak, isWs, Bool.or_eq_true, decide_eq_true_eq]
    intro hnw
    by_contra hb
    simp only [Bool.not_eq_false, Bool.or_eq_true, decide_eq_true_eq] at hb
    rcases hb with ((((((((h | h) | h) | h) | h) | h) | h) | h) | h) | h <;>
      subst h <;> simp_all
  rw [hcs]
  show ∃ l t, slGo [] (c :: cs) = l :: t ∧ _
  have hstep : slGo [] (c :: cs) = slGo [c] cs := by
    rw [slGo_cons, if_neg (by simp [hnb])]
  obtain ⟨hh, tt, hht⟩ := slGo_first cs [c]
  refine ⟨c :: hh, tt, ?_, ?_⟩
  · rw [hstep, hht]; rfl
  · have : stripL (c :: hh) ≠ [] := by
      intro hnil
      have := all_ws_of_stripL_eq_nil hnil c (List.mem_cons_self c hh)
      rw [hnw] at this
      exact Bool.false_ne_true this
    simpa [List.isEmpty_iff] using this

/-- C8 (counterexample): on an empty completion response the claim says
the angle derivation returns the (trimmed) first non-empty line; the code
evaluates `"".splitlines()[0]` and raises `IndexError` (modelled `none`)
instead of returning any string. -/
theorem c8_build_angle_counterexample : build_angle "" = none := rfl

/-- C8 (amended): for every non-empty extracted response (the completion
client strips the payload, so the argument is stripped), `build_angle`
returns the first line trimmed, which is exactly the first non-empty line
of the response, trimmed; it takes no memory argument, so the memory
record is untouched.  On an empty or all-blank response it raises
`IndexError` instead of returning. -/
theorem c8_build_angle (out : String) (h1 : pyStrip out = out)
    (h2 : out ≠ "") : build_angle out = deriveAngle_spec out := by
  obtain ⟨l, t, hsplit, hne⟩ := splitlines_stripped_head h1 h2
  rw [build_angle, deriveAngle_spec, hsplit]
  rw [List.find?_cons_of_pos _ (by simp [hne])]
  rfl

/-- C8 (witness): on a concrete two-line stripped response the angle is
the first (non-empty) line, trimmed. -/
theorem c8_build_angle_witness :
    build_angle "First line here\nSecond line" =
      deriveAngle_spec "First line here\nSecond line" :=
  c8_build_angle "First line here\nSecond line" (by decide) (by decide)

/-- Auxiliary for C3/C4: an attempt whose validated text stays below the
acceptance threshold makes the retry loop move on to the next try. -/
theorem subLoopGo_step (O : Nat → String) (chT sub : String) (t kk : Nat)
    (h : wordCount (attemptText chT sub (pyStrip (O kk))) < MIN_SUBSECTION_WORDS) :
    subLoopGo O chT sub (t + 1) kk = subLoopGo O chT sub t (kk + 1) := by
  have hn : ¬ (MIN_SUBSECTION_WORDS ≤ wordCount (attemptText chT sub (pyStrip (O kk)))) :=
    Nat.not_le.mpr h
  simp [subLoopGo, hn]

/-- A 450-word completion (the acceptance threshold). -/
def words450 : String := String.mk ((List.replicate 449 ['w', ' ']).flatten ++ ['w'])

/-- C4: the validation step applies the echo filter (dropping lines whose
stripped lower-cased text equals the chapter or subsection title, or that
match `Chapter N:`/`Day N:`) only when the cleaned completion has a line
of more than 5 words, leaving the text untouched otherwise; any result
below the hard minimum word count becomes an empty failure regardless of
content; and an attempt whose validated text reaches the target minimum
word count is accepted by the retry loop immediately, with no further
generation call. -/
theorem c4_validation (chT sub cleaned : String) :
    (hasRealProse cleaned = false → echoValidate chT sub cleaned = cleaned) ∧
    (hasRealProse cleaned = true →
      echoValidate chT sub cleaned =
        String.mk (joinNL ((splitlinesL cleaned.data).filter
          (fun ln => !isEchoLine chT sub ln)))) ∧
    (∀ v : String, wordCount v < MIN_HARD_WORDS → hardGuard v = "") ∧
    (∀ (O : Nat → String) (k : Nat),
      MIN_SUBSECTION_WORDS ≤ wordCount (attemptText chT sub (pyStrip (O k))) →
      subLoop O chT sub k = (attemptText chT sub (pyStrip (O k)), k + 1)) := by
  refine ⟨?_, ?_, ?_, ?_⟩
  · intro h; simp [echoValidate, h]
  · intro h; simp [echoValidate, h]
  · intro v h; simp [hardGuard, h]
  · intro O k h
    have hne : attemptText chT sub (pyStrip (O k)) ≠ "" := by
      intro he
      rw [he] at h
      exact absurd h (by decide)
    show subLoopGo O chT sub (4 + 1) k = _
    rw [subLoopGo]
    rw [if_pos (by rw [Bool.and_eq_true]; exact ⟨decide_eq_true hne, decide_eq_true h⟩)]

set_option maxRecDepth 8000 in
/-- C4 (witness): a short completion is left unfiltered; a 9-word string
is below the hard minimum and fails; a 450-word completion is accepted on
the first try with the next call index `k + 1`. -/
theorem c4_validation_witness :
    echoValidate "Ch" "Sub" "just a short line" = "just a short line" ∧
    hardGuard "one two three four five six seven eight nine" = "" ∧
    subLoop (fun _ => words450) "Ch" "Sub" 0 =
      (attemptText "Ch" "Sub" (pyStrip ((fun _ : Nat => words450) 0)), 0 + 1) := by
  refine ⟨?_, ?_, ?_⟩
  · exact (c4_validation "Ch" "Sub" "just a short line").1 (by decide)
  · exact (c4_validation "Ch" "Sub" "").2.2.1 _ (by decide)
  · exact (c4_validation "Ch" "Sub" "").2.2.2 _ 0 (by decide)

/-- Auxiliary for C2: `headings12` distributes over append. -/
theorem headings12_append (a b : List DocItem) :
    headings12 (a ++ b) = headings12 a ++ headings12 b :=
  List.filterMap_append a b _

/-- Auxiliary for C2: the document writer emits only paragraphs, never a
heading. -/
theorem headings12_write_subsection (s : String) :
    headings12 (write_subsection s) = [] := by
  unfold write_subsection headings12
  rw [List.filterMap_map]
  have : ∀ t : String,
      ((fun it => match it with
        | DocItem.heading l t => if l = 1 || l = 2 then some (l, t) else none
        | DocItem.para _ => none) ∘ DocItem.para) t = none := fun _ => rfl
  induction paragraphTexts s with
  | nil => rfl
  | cons p ps ih => rw [List.filterMap_cons_none (this p), ih]

/-- Auxiliary for C2: a subsection unit either aborts or emits its level-2
heading followed by body paragraphs only. -/
theorem runSubUnit_shape (O : Nat → String) (chT s : String) (mem : Mem)
    (k : Nat) :
    runSubUnit O chT s mem k = none ∨
    ∃ body m2 k2, runSubUnit O chT s mem k =
      some (DocItem.heading 2 s :: write_subsection body, m2, k2) := by
  unfold runSubUnit
  cases build_angle (pyStrip (O k)) with
  | none => exact Or.inl rfl
  | some a => exact Or.inr ⟨_, _, _, rfl⟩

/-- Auxiliary for C2: the subsection loop of one chapter emits exactly one
level-2 heading per subsection, in order, when it completes. -/
theorem runSubs_headings (O : Nat → String) (chT : String) :
    ∀ (subs : List String) (mem : Mem) (k : Nat) (evs : List DocItem)
      (m2 : Mem) (k2 : Nat),
      runSubs O chT subs mem k = some (evs, m2, k2) →
      headings12 evs = subs.map (fun s => (2, s)) := by
  intro subs
  induction subs with
  | nil =>
      intro mem k evs m2 k2 h
      rw [runSubs] at h
      have hevs : ([] : List DocItem) = evs :=
        congrArg Prod.fst (Option.some.inj h)
      rw [← hevs]
      rfl
  | cons s rest ih =>
      intro mem k evs m2 k2 h
      rw [runSubs] at h
      rcases runSubUnit_shape O chT s mem k with hnone | ⟨body, mm, kk, hsome⟩
      · rw [hnone] at h; simp at h
      · rw [hsome, Option.some_bind] at h
        cases hrest : runSubs O chT rest mm kk with
        | none => rw [hrest] at h; simp at h
        | some r2 =>
            rw [hrest, Option.map_some'] at h
            have hevs : (DocItem.heading 2 s :: write_subsection body) ++ r2.1
                = evs := congrArg Prod.fst (Option.some.inj h)
            rw [← hevs, headings12_append]
            have hh : headings12 (DocItem.heading 2 s :: write_subsection body) =
                [(2, s)] := by
              have hstep : headings12 (DocItem.heading 2 s :: write_subsection body) =
                  (2, s) :: headings12 (write_subsection body) := rfl
              rw [hstep, headings12_write_subsection]
            rw [hh]
            have := ih mm kk r2.1 r2.2.1 r2.2.2 (by rw [hrest])
            rw [this]
            rfl

/-- Auxiliary for C2: the chapter loop emits, per chapter, one level-1
heading followed by either body paragraphs (no subsections) or the level-2
headings of its subsections in order. -/
theorem mainGo_headings (O : Nat → String) :
    ∀ (chs : List Chapter) (mem : Mem) (k : Nat) (evs : List DocItem)
      (m2 : Mem) (k2 : Nat),
      mainGo O chs mem k = some (evs, m2, k2) →
      headings12 evs = outlineHeadings chs := by
  intro chs
  induction chs with
  | nil =>
      intro mem k evs m2 k2 h
      rw [mainGo] at h
      have hevs : ([] : List DocItem) = evs :=
        congrArg Prod.fst (Option.some.inj h)
      rw [← hevs]
      rfl
  | cons ch rest ih =>
      intro mem k evs m2 k2 h
      rw [mainGo] at h
      have hout : outlineHeadings (ch :: rest) =
          ((1, ch.title) :: ch.subs.map (fun s => ((2 : Nat), s))) ++
            outlineHeadings rest := by
        unfold outlineHeadings
        rw [List.map_cons, List.flatten_cons]
      by_cases hsubs : ch.subs = []
      · rw [if_pos hsubs, Option.some_bind] at h
        cases hrec : mainGo O rest (runChapterUnit O mem k).2.1
            (runChapterUnit O mem k).2.2 with
        | none => rw [hrec] at h; simp at h
        | some r2 =>
            rw [hrec, Option.map_some'] at h
            have hevs : (DocItem.heading 1 ch.title ::
                (runChapterUnit O mem k).1) ++ r2.1 = evs :=
              congrArg Prod.fst (Option.some.inj h)
            rw [← hevs, hout, hsubs]
            have hbody : (runChapterUnit O mem k).1 =
                write_subsection (quick_validate_and_fix
                  (clean_text (pyStrip (O k))) mem.claims "" O (k + 1)).1 := rfl
            have h1 : headings12 (DocItem.heading 1 ch.title ::
                (runChapterUnit O mem k).1) = [(1, ch.title)] := by
              have hstep : headings12 (DocItem.heading 1 ch.title ::
                  (runChapterUnit O mem k).1) =
                  (1, ch.title) :: headings12 ((runChapterUnit O mem k).1) := rfl
              rw [hstep, hbody, headings12_write_subsection]
            rw [headings12_append, h1,
              ih _ _ r2.1 r2.2.1 r2.2.2 (by rw [hrec])]
            rfl
      · rw [if_neg hsubs] at h
        cases hsub : runSubs O ch.title ch.subs mem k with
        | none => rw [hsub] at h; simp at h
        | some r1 =>
            rw [hsub, Option.some_bind] at h
            cases hrec : mainGo O rest r1.2.1 r1.2.2 with
            | none => rw [hrec] at h; simp at h
            | some r2 =>
                rw [hrec, Option.map_some'] at h
                have hevs : (DocItem.heading 1 ch.title :: r1.1) ++ r2.1 = evs :=
                  congrArg Prod.fst (Option.some.inj h)
                rw [← hevs, hout, headings12_append]
                have h1 : headings12 (DocItem.heading 1 ch.title :: r1.1) =
                    (1, ch.title) :: ch.subs.map (fun s => ((2 : Nat), s)) := by
                  have hstep : headings12 (DocItem.heading 1 ch.title :: r1.1) =
                      (1, ch.title) :: headings12 r1.1 := rfl
                  rw [hstep, runSubs_headings O ch.title ch.subs mem k r1.1
                    r1.2.1 r1.2.2 (by rw [hsub])]
                rw [h1, ih _ _ r2.1 r2.2.1 r2.2.2 (by rw [hrec])]

/-- C2: whenever a run completes, the document carries exactly one level-1
heading per chapter of the outline, in order, and under each chapter
exactly one level-2 heading per subsection, in order; a chapter with no
subsections contributes zero level-2 headings. -/
theorem c2_outline_headings (O : Nat → String) (title : String)
    (chapters : List Chapter) (r : List DocItem × Mem × Nat)
    (h : mainModel O title chapters = some r) :
    headings12 r.1 = outlineHeadings chapters := by
  unfold mainModel at h
  cases hg : mainGo O chapters ⟨"", [], ""⟩ 0 with
  | none => rw [hg] at h; simp at h
  | some rr =>
      rw [hg] at h
      simp only [Option.map_some', Option.some.injEq] at h
      have hmg := mainGo_headings O chapters _ _ rr.1 rr.2.1 rr.2.2 (by rw [hg])
      rw [← h]
      have hstep : headings12 (DocItem.heading 0 title :: rr.1) =
          headings12 rr.1 := rfl
      rw [hstep]
      exact hmg

/-- C2 (witness): a two-chapter outline (one chapter without subsections,
one with a single subsection) under a constant oracle completes, and its
level-1/level-2 headings are exactly the outline headings. -/
theorem c2_outline_headings_witness :
    ∃ r, mainModel (fun _ => "Hi.") "T" [⟨"A", []⟩, ⟨"B", ["s1"]⟩] = some r ∧
      headings12 r.1 = outlineHeadings [⟨"A", []⟩, ⟨"B", ["s1"]⟩] := by
  have hs : (mainModel (fun _ => "Hi.") "T"
      [⟨"A", []⟩, ⟨"B", ["s1"]⟩]).isSome = true := by decide
  obtain ⟨r, hr⟩ := Option.isSome_iff_exists.mp hs
  exact ⟨r, hr, c2_outline_headings _ "T" _ r hr⟩

/-- C3 (counterexample): with a completion service that returns a planning
line but empty text for every generation call, all five attempts and the
forced-expansion call sanitize to nothing; the driver still accepts the
empty forced text and the subsection heading is written with zero body
paragraphs — refuting `no heading is ever left without body text`. -/
theorem c3_forced_expansion_counterexample :
    runSubUnit (fun i => if i = 0 then "plan" else "") "Ch" "Sub"
        ⟨"", [], ""⟩ 0 =
      some ([DocItem.heading 2 "Sub"], ⟨"", [], "plan"⟩, 8) := by decide

/-- C3 (amended): when the validated text of all five retry attempts stays
below the acceptance threshold, the driver makes exactly one additional
forced-expansion call (call index `k + 6`), accepts its sanitized text
as the unit even when still short, runs the corrective pass and the memory
refresh on it, and writes the heading followed by that text's paragraphs —
which are empty exactly when the accepted text has no non-blank line, so a
heading can be left without body text only in that case. -/
theorem c3_forced_expansion (O : Nat → String) (chT sub : String)
    (mem : Mem) (k : Nat) (a : String)
    (hang : build_angle (pyStrip (O k)) = some a)
    (hfail : ∀ i, i < MAX_TRIES_PER_SUB →
      wordCount (attemptText chT sub (pyStrip (O (k + 1 + i)))) <
        MIN_SUBSECTION_WORDS) :
    runSubUnit O chT sub mem k =
      (let forced := clean_text (pyStrip (O (k + 6)))
       let fk := quick_validate_and_fix forced mem.claims a O (k + 7)
       some (DocItem.heading 2 sub :: write_subsection fk.1,
         update_memory_parse (pyStrip (O fk.2)) ⟨mem.summary, mem.claims, a⟩,
         fk.2 + 1)) := by
  have hloop : subLoop O chT sub (k + 1) = ("", k + 6) := by
    show subLoopGo O chT sub (4 + 1) (k + 1) = ("", k + 6)
    rw [subLoopGo_step O chT sub 4 (k + 1) (hfail 0 (by decide))]
    rw [show (4 : Nat) = 3 + 1 from rfl,
      subLoopGo_step O chT sub 3 (k + 1 + 1) (hfail 1 (by decide))]
    rw [show (3 : Nat) = 2 + 1 from rfl,
      subLoopGo_step O chT sub 2 (k + 1 + 1 + 1) (hfail 2 (by decide))]
    rw [show (2 : Nat) = 1 + 1 from rfl,
      subLoopGo_step O chT sub 1 (k + 1 + 1 + 1 + 1) (hfail 3 (by decide))]
    rw [show (1 : Nat) = 0 + 1 from rfl,
      subLoopGo_step O chT sub 0 (k + 1 + 1 + 1 + 1 + 1) (hfail 4 (by decide))]
    rfl
  simp only [runSubUnit, hang, hloop]
  rfl

/-- C3 (witness): a concrete oracle whose five generation attempts are the
one-word response `x` (below the hard minimum) and whose forced call
returns a short sentence; the unit accepts the short forced text. -/
theorem c3_forced_expansion_witness :
    runSubUnit (fun i => if i = 0 then "plan"
        else if i = 6 then "Forced body text." else "x") "Ch" "Sub"
        ⟨"", [], ""⟩ 0 =
      (let forced := clean_text (pyStrip ((fun i => if i = 0 then "plan"
          else if i = 6 then "Forced body text." else "x") (0 + 6)))
       let fk := quick_validate_and_fix forced ([] : List String) "plan"
          (fun i => if i = 0 then "plan"
            else if i = 6 then "Forced body text." else "x") (0 + 7)
       some (DocItem.heading 2 "Sub" :: write_subsection fk.1,
         update_memory_parse (pyStrip ((fun i => if i = 0 then "plan"
            else if i = 6 then "Forced body text." else "x") fk.2))
           ⟨"", [], "plan"⟩,
         fk.2 + 1)) := by
  have h := c3_forced_expansion (fun i => if i = 0 then "plan"
      else if i = 6 then "Forced body text." else "x") "Ch" "Sub"
    ⟨"", [], ""⟩ 0 "plan" (by decide)
    (by
      intro i hi
      have hi5 : i < 5 := hi
      interval_cases i <;> decide)
  exact h

/-- C5 (witness): the outline of the spec example — one mapping with two
subsections, then one bare string — flattens to exactly the three
generation units in that order. -/
theorem c5_flatten_toc_witness :
    flatten_toc [TocItem.map [("Introduction",
        TocVal.list ["What is X", "Why it matters"])],
      TocItem.str "Closing thoughts"] =
      Except.ok [⟨"Introduction", ["What is X", "Why it matters"]⟩,
        ⟨"Closing thoughts", []⟩] := by
  have h := (c5_flatten_toc_amended [TocItem.map [("Introduction",
      TocVal.list ["What is X", "Why it matters"])],
    TocItem.str "Closing thoughts"]).1 (by decide)
  simpa using h

/-- A markdown-heading match leaves a suffix of the scanned text. -/
theorem mdMatch_suffix {s : List Char} {lc : Char} {r2 : List Char}
    (h : mdMatch s = some (lc, r2)) : r2 <:+ s := by
  unfold mdMatch at h
  split at h
  · next c rest =>
      split at h
      · have hr : r2 = List.dropWhile isWs (c :: rest) :=
          (congrArg Prod.snd (Option.some.inj h)).symm
        exact hr ▸ (List.dropWhile_suffix _).trans ⟨['#', '#', '#'], rfl⟩
      · split at h <;> simp at h
  · next c rest hx =>
      split at h
      · have hr : r2 = List.dropWhile isWs (c :: rest) :=
          (congrArg Prod.snd (Option.some.inj h)).symm
        exact hr ▸ (List.dropWhile_suffix _).trans ⟨['#', '#'], rfl⟩
      · simp at h
  · simp at h

theorem mdSubGo_succ (fuel : Nat) (atStart : Bool) (c : Char) (rest : List Char) :
    mdSubGo (fuel + 1) atStart (c :: rest) =
      if atStart then
        match mdMatch (c :: rest) with
        | some (lastC, rest2) => mdSubGo fuel (lastC = '\n') rest2
        | none => c :: mdSubGo fuel (c = '\n') rest
      else c :: mdSubGo fuel (c = '\n') rest := by
  rw [mdSubGo.eq_def]

theorem mdSubGo_false_pref {P : List Char} (hP : ∀ x ∈ P, ¬ x = '\n') :
    ∀ (fuel : Nat) (s : List Char),
      startsWithL P (mdSubGo fuel false s) = true → P <+: s := by
  induction P with
  | nil => intro fuel s _; exact List.nil_prefix
  | cons p ps ih =>
      intro fuel s h
      cases fuel with
      | zero => exact startsWithL_iff_pref.mp h
      | succ fuel =>
          cases s with
          | nil => simp [mdSubGo, startsWithL] at h
          | cons c rest =>
              rw [mdSubGo_succ, if_neg (by simp)] at h
              simp only [startsWithL, Bool.and_eq_true, decide_eq_true_eq] at h
              have hc : ¬ (c = '\n') := by
                rw [← h.1]; exact hP p (List.mem_cons_self p ps)
              rw [decide_eq_false hc] at h
              rw [h.1]
              exact (List.prefix_cons_inj c).mpr
                (ih (fun x hx => hP x (List.mem_cons_of_mem p hx)) fuel rest h.2)

theorem mdSubGo_hasSub {p : Char} {P' : List Char}
    (hP : ∀ x ∈ p :: P', ¬ x = '\n') :
    ∀ (fuel : Nat) (atStart : Bool) (s : List Char),
      hasSubL (p :: P') (mdSubGo fuel atStart s) = true →
      hasSubL (p :: P') s = true := by
  intro fuel
  induction fuel with
  | zero => intro atStart s h; simpa [mdSubGo] using h
  | succ fuel ih =>
      intro atStart s h
      cases s with
      | nil => simpa [mdSubGo] using h
      | cons c rest =>
          cases atStart with
          | true =>
              rw [mdSubGo_succ, if_pos rfl] at h
              cases hm : mdMatch (c :: rest) with
              | some pr =>
                  obtain ⟨lc, r2⟩ := pr
                  rw [hm] at h
                  exact hasSubL_of_inf (mdMatch_suffix hm).isInfix (ih _ _ h)
              | none =>
                  rw [hm] at h
                  simp only [hasSubL, Bool.or_eq_true] at h ⊢
                  rcases h with h | h
                  · left
                    simp only [startsWithL, Bool.and_eq_true,
                      decide_eq_true_eq] at h ⊢
                    have hc : ¬ (c = '\n') := by
                      rw [← h.1]; exact hP p (List.mem_cons_self p P')
                    rw [decide_eq_false hc] at h
                    exact ⟨h.1, startsWithL_iff_pref.mpr
                      (mdSubGo_false_pref
                        (fun x hx => hP x (List.mem_cons_of_mem p hx))
                        fuel rest h.2)⟩
                  · right
                    exact ih _ _ h
          | false =>
              rw [mdSubGo_succ, if_neg (by simp)] at h
              simp only [hasSubL, Bool.or_eq_true] at h ⊢
              rcases h with h | h
              · left
                simp only [startsWithL, Bool.and_eq_true,
                  decide_eq_true_eq] at h ⊢
                have hc : ¬ (c = '\n') := by
                  rw [← h.1]; exact hP p (List.mem_cons_self p P')
                rw [decide_eq_false hc] at h
                exact ⟨h.1, startsWithL_iff_pref.mpr
                  (mdSubGo_false_pref
                    (fun x hx => hP x (List.mem_cons_of_mem p hx))
                    fuel rest h.2)⟩
              · right
                exact ih _ _ h

theorem bulletMatch_parts {s : List Char} {w : List Char} {lc : Char}
    {r2 : List Char} (h : bulletMatch s = some (w, lc, r2)) :
    (∀ x ∈ w, isWs x = true) ∧ r2 <:+ s := by
  unfold bulletMatch at h
  split at h
  · next x c rest heq =>
      simp only [] at h
      split at h
      · split at h
        · simp at h
        · next r rs heq2 =>
            have hw : w = List.takeWhile isWs s :=
              (congrArg (fun p => p.1) (Option.some.inj h)).symm
            have hr : r2 = List.dropWhile isWs rest :=
              (congrArg (fun p => p.2.2) (Option.some.inj h)).symm
            refine ⟨?_, ?_⟩
            · intro x hx
              exact List.mem_takeWhile_imp (hw ▸ hx)
            · have h1 : rest <:+ s :=
                (List.suffix_cons c rest).trans (heq ▸ List.dropWhile_suffix isWs)
              exact hr ▸ (List.dropWhile_suffix _).trans h1
      · simp at h
  · simp at h

theorem bulletSubGo_false_step (fuel : Nat) (c : Char) (rest : List Char) :
    bulletSubGo (fuel + 1) false (c :: rest) =
      c :: bulletSubGo fuel (c = '\n') rest := rfl

theorem bulletSubGo_true_step (fuel : Nat) (c : Char) (rest : List Char) :
    bulletSubGo (fuel + 1) true (c :: rest) =
      (match bulletMatch (c :: rest) with
       | some (w, lastC, rest2) => w ++ bulletSubGo fuel (lastC = '\n') rest2
       | none => c :: bulletSubGo fuel (c = '\n') rest) := rfl

theorem bulletSubGo_false_pref {P : List Char} (hP : ∀ x ∈ P, ¬ x = '\n') :
    ∀ (fuel : Nat) (s : List Char),
      startsWithL P (bulletSubGo fuel false s) = true → P <+: s := by
  induction P with
  | nil => intro fuel s _; exact List.nil_prefix
  | cons p ps ih =>
      intro fuel s h
      cases fuel with
      | zero => exact startsWithL_iff_pref.mp h
      | succ fuel =>
          cases s with
          | nil =>
              rw [show bulletSubGo (fuel + 1) false [] = [] from rfl] at h
              simp [startsWithL] at h
          | cons c rest =>
              rw [bulletSubGo_false_step] at h
              simp only [startsWithL, Bool.and_eq_true, decide_eq_true_eq] at h
              have hc : ¬ (c = '\n') := by
                rw [← h.1]; exact hP p (List.mem_cons_self p ps)
              rw [decide_eq_false hc] at h
              rw [h.1]
              exact (List.prefix_cons_inj c).mpr
                (ih (fun x hx => hP x (List.mem_cons_of_mem p hx)) fuel rest h.2)

theorem bulletSubGo_hasSub {p : Char} {P' : List Char}
    (hp : isWs p = false) (hP : ∀ x ∈ p :: P', ¬ x = '\n') :
    ∀ (fuel : Nat) (atStart : Bool) (s : List Char),
      hasSubL (p :: P') (bulletSubGo fuel atStart s) = true →
      hasSubL (p :: P') s = true := by
  intro fuel
  induction fuel with
  | zero => intro atStart s h; exact h
  | succ fuel ih =>
      intro atStart s h
      cases s with
      | nil => exact h
      | cons c rest =>
          cases atStart with
          | true =>
              rw [bulletSubGo_true_step] at h
              cases hm : bulletMatch (c :: rest) with
              | some pr =>
                  obtain ⟨w, lc, r2⟩ := pr
                  rw [hm] at h
                  obtain ⟨hw, hsfx⟩ := bulletMatch_parts hm
                  have h2 : hasSubL (p :: P')
                      (bulletSubGo fuel (decide (lc = '\n')) r2) = true :=
                    hasSubL_append_ws_left hp hw h
                  exact hasSubL_of_inf hsfx.isInfix (ih _ _ h2)
              | none =>
                  rw [hm] at h
                  simp only [hasSubL, Bool.or_eq_true] at h ⊢
                  rcases h with h | h
                  · left
                    simp only [startsWithL, Bool.and_eq_true,
                      decide_eq_true_eq] at h ⊢
                    have hc : ¬ (c = '\n') := by
                      rw [← h.1]; exact hP p (List.mem_cons_self p P')
                    rw [decide_eq_false hc] at h
                    exact ⟨h.1, startsWithL_iff_pref.mpr
                      (bulletSubGo_false_pref
                        (fun x hx => hP x (List.mem_cons_of_mem p hx))
                        fuel rest h.2)⟩
                  · right
                    exact ih _ _ h
          | false =>
              rw [bulletSubGo_false_step] at h
              simp only [hasSubL, Bool.or_eq_true] at h ⊢
              rcases h with h | h
              · left
                simp only [startsWithL, Bool.and_eq_true,
                  decide_eq_true_eq] at h ⊢
                have hc : ¬ (c = '\n') := by
                  rw [← h.1]; exact hP p (List.mem_cons_self p P')
                rw [decide_eq_false hc] at h
                exact ⟨h.1, startsWithL_iff_pref.mpr
                  (bulletSubGo_false_pref
                    (fun x hx => hP x (List.mem_cons_of_mem p hx))
                    fuel rest h.2)⟩
              · right
                exact ih _ _ h

theorem rstripL_pref (l : List Char) : rstripL l <+: l := by
  have h := List.reverse_prefix.mpr (List.dropWhile_suffix (l := l.reverse) isWs)
  rwa [List.reverse_reverse] at h

theorem stripL_inf (l : List Char) : stripL l <:+: l :=
  ((List.dropWhile_suffix isWs).isInfix).trans (rstripL_pref l).isInfix

theorem stripBold_inf (t : List Char) : stripBold t <:+: t := by
  unfold stripBold
  have h1 : ((t.drop 2).reverse.drop 2).reverse <+: t.drop 2 := by
    rw [← List.reverse_suffix, List.reverse_reverse]
    exact List.drop_suffix 2 _
  exact h1.isInfix.trans (List.drop_suffix 2 t).isInfix

theorem cleanLine_eq (ln : List Char) : cleanLine ln =
    (if (capsDominant (rstripL ln) && decide (8 < (rstripL ln).length)) = true
     then none
     else some (if fullBoldMatch (rstripL ln) = true then
       stripBold (rstripL ln) else rstripL ln)) := rfl

theorem cleanLine_inf {ln out : List Char} (h : cleanLine ln = some out) :
    out <:+: ln := by
  rw [cleanLine_eq] at h
  split at h
  · simp at h
  · have hout : out = if fullBoldMatch (rstripL ln) = true then
        stripBold (rstripL ln) else rstripL ln := (Option.some.inj h).symm
    by_cases hb : fullBoldMatch (rstripL ln) = true
    · rw [hout, if_pos hb]
      exact (stripBold_inf _).trans (rstripL_pref ln).isInfix
    · rw [hout, if_neg hb]
      exact (rstripL_pref ln).isInfix

theorem splitlines_line_inf :
    ∀ (n : Nat) (cs : List Char), cs.length ≤ n → ∀ (acc : List Char),
      ∀ l ∈ slGo acc cs, l <:+: acc.reverse ++ cs := by
  intro n
  induction n with
  | zero =>
      intro cs hlen acc l hl
      have : cs = [] := List.eq_nil_of_length_eq_zero (Nat.le_zero.mp hlen)
      subst this
      simp only [slGo, List.mem_singleton] at hl
      subst hl
      exact ⟨[], [], by simp⟩
  | succ n ih =>
      intro cs hlen acc l hl
      cases cs with
      | nil =>
          simp only [slGo, List.mem_singleton] at hl
          subst hl
          exact ⟨[], [], by simp⟩
      | cons c rest =>
          by_cases hb : isLineBreak c = true
          · cases rest with
            | nil =>
                have hl2 : l ∈ [acc.reverse] := by
                  rw [slGo_cons, if_pos hb] at hl
                  exact hl
                simp only [List.mem_singleton] at hl2
                subst hl2
                exact ⟨[], [c], by simp⟩
            | cons d r2 =>
                rw [slGo_cons, if_pos hb] at hl
                simp only [] at hl
                by_cases hcd : (decide (c = '\x0d') && decide (d = '\n')) = true
                · rw [if_pos hcd] at hl
                  cases r2 with
                  | nil =>
                      simp only [List.mem_singleton] at hl
                      subst hl
                      exact ⟨[], [c, d], by simp⟩
                  | cons e r3 =>
                      simp only [] at hl
                      rcases List.mem_cons.mp hl with hl4 | hl4
                      · subst hl4
                        exact ⟨[], c :: d :: e :: r3, by simp⟩
                      · have hrec := ih (e :: r3)
                          (by simp at hlen ⊢; omega) [] l hl4
                        simp only [List.reverse_nil, List.nil_append] at hrec
                        have hsfx : e :: r3 <:+ acc.reverse ++ c :: d :: e :: r3 :=
                          ⟨acc.reverse ++ [c, d], by simp⟩
                        exact hrec.trans hsfx.isInfix
                · rw [if_neg hcd] at hl
                  rcases List.mem_cons.mp hl with hl4 | hl4
                  · subst hl4
                    exact ⟨[], c :: d :: r2, by simp⟩
                  · have hrec := ih (d :: r2)
                      (by simp at hlen ⊢; omega) [] l hl4
                    simp only [List.reverse_nil, List.nil_append] at hrec
                    have hsfx : d :: r2 <:+ acc.reverse ++ c :: d :: r2 :=
                      ⟨acc.reverse ++ [c], by simp⟩
                    exact hrec.trans hsfx.isInfix
          · have hl2 : l ∈ slGo (c :: acc) rest := by
              rw [slGo_cons, if_neg hb] at hl
              exact hl
            have hrec := ih rest (by simp at hlen ⊢; omega) (c :: acc) l hl2
            rw [List.reverse_cons, List.append_assoc] at hrec
            exact hrec

theorem linePass_hasSub {p : Char} {P' : List Char}
    (hnl : ∀ x ∈ p :: P', ¬ x = '\n') {u : List Char}
    (h : hasSubL (p :: P') (linePassL u) = true) :
    hasSubL (p :: P') u = true := by
  have hmem : '\n' ∉ p :: P' := fun hm => hnl '\n' hm rfl
  unfold linePassL at h
  obtain ⟨pl, hpl, hsub⟩ := hasSubL_joinNL hmem (by simp) _ h
  obtain ⟨ln, hln, hcl⟩ := List.mem_filterMap.mp hpl
  have h1 : hasSubL (p :: P') ln = true :=
    hasSubL_of_inf (cleanLine_inf hcl) hsub
  cases hu : u with
  | nil => rw [hu] at hln; simp [splitlinesL] at hln
  | cons c r =>
      rw [hu] at hln
      have := splitlines_line_inf (c :: r).length (c :: r) le_rfl [] ln
        (by simpa [splitlinesL] using hln)
      simp only [List.reverse_nil, List.nil_append] at this
      exact hasSubL_of_inf this h1

/-- Passing the raw text through clean_text, any sentinel occurrence of the
output is already present right after the sentinel-removal and strip steps:
the later passes only delete characters whose removal cannot splice a new
occurrence of a pattern that contains neither whitespace nor a newline. -/
theorem c9_chain (raw : String)
    (h : hasSubL END_MARK.data (clean_text raw).data = true) :
    hasSubL END_MARK.data (removeAstralL (stripL (replEndL raw.data))) = true := by
  have hE : END_MARK.data = '<' :: "<<END_OF_SUBHEADING>>>".data := rfl
  have hnl : ∀ x ∈ '<' :: "<<END_OF_SUBHEADING>>>".data, ¬ x = '\n' := by decide
  have hp : isWs '<' = false := by decide
  by_cases hr : raw = ""
  · rw [hr] at h
    exact absurd h (by decide)
  · rw [clean_text, if_neg hr] at h
    rw [hE] at h ⊢
    have h1 : hasSubL ('<' :: "<<END_OF_SUBHEADING>>>".data)
        (stripL (linePassL (bulletSubL (mdSubL
          (removeAstralL (stripL (replEndL raw.data))))))) = true := h
    have h2 := hasSubL_of_inf (stripL_inf _) h1
    have h3 := linePass_hasSub hnl h2
    rw [bulletSubL] at h3
    have h4 := bulletSubGo_hasSub hp hnl _ _ _ h3
    rw [mdSubL] at h4
    exact mdSubGo_hasSub hnl _ _ _ h4

/-- C9 (counterexample): removing the two sentinel occurrences of this
completion splices its fragments into a new sentinel occurrence, and the
surrounding lower-case characters keep the line below the caps-dominance
threshold, so the sanitized text still contains the sentinel — refuting
the invariant that no sanitized (hence written) text contains it. -/
theorem c9_sentinel_counterexample :
    hasSubL END_MARK.data
      (clean_text ("xxxxxxxxxxxx<<<END_OF_SUB" ++ END_MARK ++ "HEADING>>>")).data
      = true := by decide

/-- C9 (amended): the sanitizer removes every non-overlapping occurrence of
the sentinel in a single left-to-right scan and trims whitespace — on the
spec example, sanitizing `"Some text\n<<<END_OF_SUBHEADING>>>"` yields
exactly `"Some text"` — and whenever that single scan leaves no sentinel
occurrence (i.e. no removal splices one), the fully sanitized text is
sentinel-free; the counterexample shows the splicing case can defeat the
guarantee, so unconditional sentinel-freedom does not hold. -/
theorem c9_sentinel_no_resplice :
    (∀ raw : String,
       hasSubL END_MARK.data (removeAstralL (stripL (replEndL raw.data))) = false →
       hasSubL END_MARK.data (clean_text raw).data = false) ∧
    clean_text "Some text\n<<<END_OF_SUBHEADING>>>" = "Some text" := by
  refine ⟨?_, by decide⟩
  intro raw h
  by_contra hc
  rw [Bool.not_eq_false] at hc
  rw [c9_chain raw hc] at h
  exact Bool.true_eq_false.mp h

/-- Witness for C9 at the spec example input. -/
theorem c9_sentinel_no_resplice_witness :
    hasSubL END_MARK.data
      (clean_text "Some text\n<<<END_OF_SUBHEADING>>>").data = false :=
  c9_sentinel_no_resplice.1 "Some text\n<<<END_OF_SUBHEADING>>>" (by decide)

end Bookgen
